import Mathlib

/-!
Verification development for the cheap-crawler repository.

The embedding translates the crawl engine in `src/src/crawler.js` (the
batched-concurrency, email-extracting revision, which the spec fixes as the
target behavior), together with the result post-processing performed by the
job worker and the HTTP handler (`src/unnamed/part_003`).

Modelling conventions:
* JavaScript strings are modelled at character granularity (`String` /
  `List Char`); `text.length`, `substring`, `trim`, `split`, `replace` are
  translated to executable functions over `List Char`.
* The headless browser is an external collaborator: a crawl runs against a
  `World`, a function assigning to every URL either a fetched page (its DOM
  extraction outcome: title, body text, headings, paragraphs, resolved anchor
  URLs) or `none` (navigation timeout / extraction failure, i.e. the
  `catch` branch of `processUrl`).
* The JS event loop makes each batch deterministic: within one `Promise.all`
  batch the synchronous prefix of `processUrl` (visited-set check and add,
  crawler.js:160-165) runs in batch order before any fetch completes, and
  `scrapedData` is mutated only between batches, so `scrapedData.length`
  read inside `processUrl` (crawler.js:239) equals the collected count at
  batch dispatch.  The loop is therefore embedded as a deterministic
  function of the `World`, with explicit fuel for the outer `while` loop.
-/

set_option maxHeartbeats 1000000
set_option maxRecDepth 4000

namespace CheapCrawler

/-! ### JavaScript string primitives -/

/-- Whitespace class used by JS `trim()` and the `\s` regex class
(ASCII part, which is all the crawler's patterns and separators use). -/
def isJsWS (c : Char) : Bool :=
  c == ' ' || c == '\t' || c == '\n' || c == '\r' || c == '\x0b' || c == '\x0c'

/-- Left part of JS `String.prototype.trim`. -/
def trimLeft (s : List Char) : List Char := s.dropWhile isJsWS

/-- Right part of JS `String.prototype.trim`. -/
def trimRight (s : List Char) : List Char := (s.reverse.dropWhile isJsWS).reverse

/-- JS `String.prototype.trim`. -/
def trimChars (s : List Char) : List Char := trimRight (trimLeft s)

/-- Worker for `collapseWS`; the flag records whether we are inside a
whitespace run that has already emitted its single replacement space. -/
def collapseGo : Bool → List Char → List Char
  | _, [] => []
  | inRun, c :: rest =>
    if isJsWS c then
      if inRun then collapseGo true rest else ' ' :: collapseGo true rest
    else c :: collapseGo false rest

/-- JS `.replace(/\s+/g, " ")`: every maximal whitespace run becomes one space
(crawler.js:88). -/
def collapseWS (s : List Char) : List Char := collapseGo false s

/-- JS `.replace(/\r\n/g, "\n")` (crawler.js:66): left-to-right,
non-overlapping, no rescan of replaced text. -/
def replaceCRLF : List Char → List Char
  | [] => []
  | [c] => [c]
  | c :: d :: rest =>
    if c = '\r' ∧ d = '\n' then '\n' :: replaceCRLF rest
    else c :: replaceCRLF (d :: rest)

/-- Worker for `splitSecs`: `acc` is the current section (reversed), and
`(d, k)` records a pending run of `k` copies of the separator candidate `d`
(`'\n'` or `'\r'`); a run of length ≥ 2 is a section delimiter, a run of
length 1 belongs to the section, mirroring `/\n{2,}|\r{2,}/`. -/
def splitSecsGo : List Char → Char → Nat → List Char → List (List Char)
  | acc, d, k, [] =>
    if 2 ≤ k then [acc.reverse, []]
    else [(List.replicate k d ++ acc).reverse]
  | acc, d, k, c :: rest =>
    if c = d ∧ 1 ≤ k then splitSecsGo acc d (k + 1) rest
    else if 2 ≤ k then
      acc.reverse ::
        (if c = '\n' ∨ c = '\r' then splitSecsGo [] c 1 rest
         else splitSecsGo [c] 'x' 0 rest)
    else
      let acc' := List.replicate k d ++ acc
      if c = '\n' ∨ c = '\r' then splitSecsGo acc' c 1 rest
      else splitSecsGo (c :: acc') 'x' 0 rest

/-- JS `.split(/\n{2,}|\r{2,}/)` (COOKIE_SECTION_SPLIT_REGEX, crawler.js:53). -/
def splitSecs (s : List Char) : List (List Char) := splitSecsGo [] 'x' 0 s

/-- JS `.join("\n\n")` (crawler.js:91). -/
def joinSecs : List (List Char) → List Char
  | [] => []
  | [s] => s
  | s :: t :: rest => s ++ '\n' :: '\n' :: joinSecs (t :: rest)

/-- ASCII lowercasing, modelling JS case-insensitive (`/i`) matching of the
all-ASCII cookie patterns. -/
def lowerList (s : List Char) : List Char := s.map Char.toLower

def startsWithChars : List Char → List Char → Bool
  | [], _ => true
  | _ :: _, [] => false
  | p :: ps, c :: cs => p == c && startsWithChars ps cs

/-- Literal substring search: `containsSub pat s` iff `pat` occurs in `s`.
All COOKIE_PATTERNS are literal (no regex metacharacters), so `/pat/i.test(s)`
is exactly `containsSub pat (lowerList s)` after lowercasing `pat`. -/
def containsSub (pat : List Char) : List Char → Bool
  | [] => pat.isEmpty
  | c :: rest => startsWithChars pat (c :: rest) || containsSub pat rest

/-- COOKIE_PATTERNS (crawler.js:38-51), already lowercase in the source. -/
def COOKIE_PATTERNS : List (List Char) :=
  ["cookie", "cookies", "gdpr", "privacy policy", "privacy settings", "consent",
   "accept all", "reject all", "manage preferences", "personalized ads",
   "we value your privacy", "tracking technologies"].map String.toList

/-- isCookieText (crawler.js:57-60): some pattern matches, case-insensitively. -/
def isCookieText (s : List Char) : Bool :=
  if s.isEmpty then false
  else COOKIE_PATTERNS.any (fun p => containsSub p (lowerList s))

/-- The keyword count of crawler.js:79-82.  Each pattern is a non-global
regex, so `section.match(pattern)` yields an array of length 1 when the
pattern occurs and `null` otherwise: each pattern contributes 0 or 1. -/
def keywordMatchCount (s : List Char) : Nat :=
  COOKIE_PATTERNS.foldl (fun cnt p => cnt + (if containsSub p (lowerList s) then 1 else 0)) 0

/-- The section filter predicate of crawler.js:72-87 (`true` = keep). -/
def keepSection (s : List Char) : Bool :=
  if s.isEmpty then false
  else if isCookieText s && decide (s.length ≤ 1200) then false
  else if 2 ≤ keywordMatchCount s then false
  else true

/-- The surviving, collapsed sections of `removeCookieSections`
(the `filtered` list of crawler.js:71-89). -/
def cleanedSections (text : String) : List (List Char) :=
  (((((splitSecs (replaceCRLF text.toList)).map trimChars).filter
    (· ≠ [])).filter keepSection).map (fun s => trimChars (collapseWS s))).filter (· ≠ [])

/-- removeCookieSections (crawler.js:62-92), the Noise Filter `clean`. -/
def removeCookieSections (text : String) : String :=
  if text = "" then ""
  else String.mk (trimChars (joinSecs (cleanedSections text)))

/-! ### URLs, pages and the crawl engine (crawler.js:105-357) -/

/-- A parsed absolute URL, as produced by JS `new URL(...)`: `protocol`
includes the trailing colon (e.g. "https:"), `path` stands for path plus
query, `fragment` for the part after `#`. -/
structure Url where
  protocol : String
  hostname : String
  path : String
  fragment : String
deriving DecidableEq

/-- Fragment stripping, JS `urlObj.href.split("#")[0]` (crawler.js:126). -/
def stripFragment (u : Url) : Url := { u with fragment := "" }

/-- The DOM-extraction outcome of one successfully fetched page.  `anchors`
are the resolved absolute URLs of the page's `a[href]` elements in DOM order
(relative-URL resolution is done by the browser collaborator).  `emails` is
the outcome of the email extraction over the page's content and cleaned
paragraphs (crawler.js:221-225); it is carried as an oracle field because no
claim depends on the EMAIL_REGEX internals, only on which pages contribute
emails. -/
structure FetchedPage where
  title : String
  content : String
  headings : List (String × String)
  paragraphs : List String
  anchors : List Url
  emails : List String

/-- The browser collaborator: what fetching each URL yields, `none` meaning
navigation timeout or extraction error (the `catch` of crawler.js:244-246). -/
def World : Type := Url → Option FetchedPage

/-- The pageData record pushed onto `scrapedData` (crawler.js:228-235),
without the wall-clock `crawledAt` timestamp. -/
structure PageData where
  url : Url
  title : String
  headings : List (String × String)
  paragraphs : List String
  content : String
deriving DecidableEq

/-- The value `processUrl` resolves with on success (crawler.js:243). -/
structure ProcResult where
  pageData : PageData
  links : List Url
  emails : List String
deriving DecidableEq

/-- The filter of crawler.js:121-124: same hostname and http/https only. -/
def sameDomainHttp (baseHostname : String) (u : Url) : Bool :=
  u.hostname == baseHostname && (u.protocol == "http:" || u.protocol == "https:")

def dedupGo (seen : List Url) : List Url → List Url
  | [] => []
  | u :: rest => if u ∈ seen then dedupGo seen rest else u :: dedupGo (u :: seen) rest

/-- JS `[...new Set(extractedLinks)]` (crawler.js:133): first-occurrence
deduplication preserving order. -/
def dedupKeepFirst (l : List Url) : List Url := dedupGo [] l

/-- extractSameDomainLinks (crawler.js:105-140) given the page's resolved
anchors: keep same-host http/https links, strip fragments, deduplicate. -/
def extractSameDomainLinks (anchors : List Url) (baseHostname : String) : List Url :=
  dedupKeepFirst ((anchors.filter (sameDomainHttp baseHostname)).map stripFragment)

/-- processUrl (crawler.js:152-250).  Returns the updated visited set and the
optional result.  The visited check and add (lines 160-165) are the
synchronous prefix; the budget check for link extraction (line 239) reads the
collected count at batch dispatch (`scrapedLen`). -/
def processUrl (w : World) (visited : List Url) (u : Url) (baseHostname : String)
    (scrapedLen maxPages : Nat) : List Url × Option ProcResult :=
  if u ∈ visited then (visited, none)
  else
    let visited' := u :: visited
    match w u with
    | none => (visited', none)
    | some page =>
      let cleanedParagraphs := (page.paragraphs.map removeCookieSections).filter (· ≠ "")
      let cleanedHeadings :=
        (page.headings.map (fun h => (h.1, removeCookieSections h.2))).filter
          (fun h => h.2 ≠ "")
      let cleanedContent := removeCookieSections page.content
      let pageData : PageData :=
        { url := u, title := page.title, headings := cleanedHeadings,
          paragraphs := cleanedParagraphs, content := cleanedContent }
      let links :=
        if scrapedLen + 1 < maxPages then extractSameDomainLinks page.anchors baseHostname
        else []
      (visited', some { pageData := pageData, links := links, emails := page.emails })

/-- The crawl session's mutable state (crawler.js:253-258): collected page
records, visited set, FIFO frontier, and the deduplicated email set in
insertion order. -/
structure CrawlState where
  scraped : List PageData
  visited : List Url
  queue : List Url
  emails : List String

/-- The batch-pull loop of crawler.js:288-298: shift URLs off the queue,
skipping visited ones, while the batch is below `maxConc` and
`scraped + batch` is below `maxPages`.  Returns the batch and the remaining
queue. -/
def pullBatch (visited : List Url) (scrapedLen maxConc maxPages : Nat) :
    List Url → List Url → List Url × List Url
  | [], batch => (batch, [])
  | next :: rest, batch =>
    if batch.length < maxConc ∧ scrapedLen + batch.length < maxPages then
      if next ∈ visited then pullBatch visited scrapedLen maxConc maxPages rest batch
      else pullBatch visited scrapedLen maxConc maxPages rest (batch ++ [next])
    else (batch, next :: rest)

/-- One `Promise.all` batch (crawler.js:305-316): the synchronous prefixes
run in batch order, threading the visited set; results come back in batch
order. -/
def runBatch (w : World) (baseHostname : String) (scrapedLen maxPages : Nat) :
    List Url → List Url → List Url × List (Option ProcResult)
  | visited, [] => (visited, [])
  | visited, u :: rest =>
    let pr := processUrl w visited u baseHostname scrapedLen maxPages
    let rb := runBatch w baseHostname scrapedLen maxPages pr.1 rest
    (rb.1, pr.2 :: rb.2)

/-- The link-enqueue loop of crawler.js:325-329: push each link not yet
visited and not already queued. -/
def enqueueLinks (visited : List Url) : List Url → List Url → List Url
  | queue, [] => queue
  | queue, l :: ls =>
    enqueueLinks visited (if l ∉ visited ∧ l ∉ queue then queue ++ [l] else queue) ls

/-- JS `Set.prototype.add` on the email set: append if absent. -/
def addEmail (xs : List String) (x : String) : List String :=
  if x ∈ xs then xs else xs ++ [x]

/-- The result-processing loop of crawler.js:319-331. -/
def applyResults : CrawlState → List (Option ProcResult) → CrawlState
  | st, [] => st
  | st, none :: rs => applyResults st rs
  | st, some r :: rs =>
    applyResults
      { st with
        scraped := st.scraped ++ [r.pageData]
        emails := r.emails.foldl addEmail st.emails
        queue := enqueueLinks st.visited st.queue r.links } rs

/-- The `while` loop of crawler.js:286-332, with explicit fuel bounding the
number of iterations (every safety claim is proved for all fuel values). -/
def crawlLoop (w : World) (baseHostname : String) (maxPages maxConc : Nat) :
    Nat → CrawlState → CrawlState
  | 0, st => st
  | fuel + 1, st =>
    if 0 < st.queue.length ∧ st.scraped.length < maxPages then
      let pb := pullBatch st.visited st.scraped.length maxConc maxPages st.queue []
      if pb.1.isEmpty then { st with queue := pb.2 }
      else
        let rb := runBatch w baseHostname st.scraped.length maxPages st.visited pb.1
        let st' := applyResults { st with visited := rb.1, queue := pb.2 } rb.2
        crawlLoop w baseHostname maxPages maxConc fuel st'
    else st

/-- The crawl's returned record (crawler.js:351-356). -/
structure CrawlResult where
  text : String
  pagesScraped : Nat
  urls : List Url
  emails : List String
deriving DecidableEq

/-- The aggregation of crawler.js:345-349: join non-empty cleaned contents
with a blank line and trim. -/
def aggregateText (scraped : List PageData) : String :=
  String.mk (trimChars (joinSecs ((scraped.map (fun p => p.content.toList)).filter (· ≠ []))))

/-- scrapeWebsite (crawler.js:252-357).  `maxConcurrency = 3`
(crawler.js:257); the initial frontier is the seed URL alone. -/
def scrapeWebsite (w : World) (seedUrl : Url) (maxPages : Nat) (fuel : Nat) : CrawlResult :=
  let final := crawlLoop w seedUrl.hostname maxPages 3 fuel
    { scraped := [], visited := [], queue := [seedUrl], emails := [] }
  { text := aggregateText final.scraped
    pagesScraped := final.scraped.length
    urls := final.scraped.map (fun p => p.url)
    emails := final.emails }

/-! ### The Launch Limiter (crawler.js:5-33)

The `BrowserLaunchLimiter` methods run synchronously on the JS event loop,
so an arbitrary interleaving of `acquire`/`release` calls is a sequence of
atomic state transitions.  `holders` is ghost instrumentation naming the
callers currently holding a permit; callers are identified by numbers. -/

structure LimiterState where
  maxConcurrent : Nat
  activeLaunches : Int
  waitQueue : List Nat
  holders : List Nat
deriving DecidableEq

def initLimiter (n : Nat) : LimiterState :=
  { maxConcurrent := n, activeLaunches := 0, waitQueue := [], holders := [] }

/-- acquire (crawler.js:12-21): grant a permit if below capacity, otherwise
append the caller to the FIFO wait queue. -/
def acquire (s : LimiterState) (c : Nat) : LimiterState :=
  if s.activeLaunches < (s.maxConcurrent : Int) then
    { s with activeLaunches := s.activeLaunches + 1, holders := s.holders ++ [c] }
  else
    { s with waitQueue := s.waitQueue ++ [c] }

/-- release (crawler.js:23-32): decrement, then hand the freed slot to the
head of the wait queue if any. -/
def release (s : LimiterState) (c : Nat) : LimiterState :=
  let s' := { s with activeLaunches := s.activeLaunches - 1, holders := s.holders.erase c }
  match s'.waitQueue with
  | [] => s'
  | next :: rest =>
    { s' with activeLaunches := s'.activeLaunches + 1, waitQueue := rest,
              holders := s'.holders ++ [next] }

/-- States reachable under the usage protocol: a fresh caller may invoke
`acquire`, and a caller holding a permit may `release` it (scrapeWebsite
releases on every exit path, crawler.js:280 and 341). -/
inductive Reachable (n : Nat) : LimiterState → Prop
  | init : Reachable n (initLimiter n)
  | acq {s : LimiterState} {c : Nat} :
      Reachable n s → c ∉ s.holders → c ∉ s.waitQueue → Reachable n (acquire s c)
  | rel {s : LimiterState} {c : Nat} :
      Reachable n s → c ∈ s.holders → Reachable n (release s c)

/-! ### Result post-processing (src/unnamed/part_003)

Two front-ends post-process the crawl result: the job worker
(part_003:5-46) and the HTTP handler (part_003:107-173).  Both truncate to
`maxLength` and report token estimates. -/

/-- The response shape of part_003:32-41 and part_003:156-165; JS `undefined`
fields are `none`. -/
structure ScrapeResponse where
  text : String
  pagesScraped : Nat
  urls : List Url
  tokenEstimate : Nat
  originalTokenEstimate : Option Nat
  characterCount : Nat
  originalCharacterCount : Option Nat
  truncated : Bool
deriving DecidableEq

/-- JS `s.substring(0, n)` (end index clamped to the string length). -/
def jsSubstringTo (s : String) (n : Nat) : String := String.mk (s.toList.take n)

/-- estimateTokens (part_003:100-105): `Math.ceil(text.length / 4)` with an
empty-string guard. -/
def estimateTokens (text : String) : Nat :=
  if text = "" then 0 else (text.length + 3) / 4

/-- The JS truthiness test `maxLength && result.text.length > maxLength`
(part_003:17 and part_003:146): `null`/absent and `0` are falsy. -/
def jsTruncCond (maxLength : Option Nat) (len : Nat) : Bool :=
  match maxLength with
  | some m => decide (m ≠ 0) && decide (m < len)
  | none => false

/-- The worker's post-processing of a crawl result (processJob,
part_003:14-41): truncate, then `originalTokenEstimate = ceil(originalLength/4)`. -/
def processJobResult (r : CrawlResult) (maxLength : Option Nat) : ScrapeResponse :=
  let originalLength := r.text.length
  if jsTruncCond maxLength r.text.length then
    let text := String.mk (r.text.toList.take (maxLength.getD 0) ++ "...".toList)
    { text := text
      pagesScraped := r.pagesScraped
      urls := r.urls
      tokenEstimate := (text.length + 3) / 4
      originalTokenEstimate := some ((originalLength + 3) / 4)
      characterCount := text.length
      originalCharacterCount := some originalLength
      truncated := true }
  else
    { text := r.text
      pagesScraped := r.pagesScraped
      urls := r.urls
      tokenEstimate := (r.text.length + 3) / 4
      originalTokenEstimate := none
      characterCount := r.text.length
      originalCharacterCount := none
      truncated := false }

/-- The HTTP handler's post-processing (handleScrapeRequest,
part_003:143-165).  Note line 153: after `result.text` has been reassigned
to the truncated text, `originalTokenEstimate` is computed as
`estimateTokens(result.text.substring(0, originalLength))` — an estimate of
the already-truncated text clamped to `originalLength`. -/
def handleScrapeResponse (r : CrawlResult) (maxLengthLimit : Option Nat) : ScrapeResponse :=
  let originalLength := r.text.length
  if jsTruncCond maxLengthLimit r.text.length then
    let text := String.mk (r.text.toList.take (maxLengthLimit.getD 0) ++ "...".toList)
    { text := text
      pagesScraped := r.pagesScraped
      urls := r.urls
      tokenEstimate := estimateTokens text
      originalTokenEstimate := some (estimateTokens (jsSubstringTo text originalLength))
      characterCount := text.length
      originalCharacterCount := some originalLength
      truncated := true }
  else
    { text := r.text
      pagesScraped := r.pagesScraped
      urls := r.urls
      tokenEstimate := estimateTokens r.text
      originalTokenEstimate := none
      characterCount := r.text.length
      originalCharacterCount := none
      truncated := false }

/-! ### Basic helper lemmas -/

theorem length_mk (l : List Char) : (String.mk l).length = l.length := rfl

theorem toList_mk (l : List Char) : (String.mk l).toList = l := rfl

theorem length_eq_toList_length (s : String) : s.length = s.toList.length := rfl

/-! ### C1: page budget and urls length -/

theorem pullBatch_length_le (v : List Url) (sl mc mp : Nat) :
    ∀ q b, sl + b.length ≤ mp → sl + (pullBatch v sl mc mp q b).1.length ≤ mp := by
  intro q
  induction q with
  | nil => intro b hb; simpa [pullBatch] using hb
  | cons next rest ih =>
    intro b hb
    by_cases hcond : b.length < mc ∧ sl + b.length < mp
    · by_cases hv : next ∈ v
      · simpa [pullBatch, hcond, hv] using ih b hb
      · have : sl + (b ++ [next]).length ≤ mp := by
          simp only [List.length_append, List.length_cons, List.length_nil]
          omega
        simpa [pullBatch, hcond, hv] using ih (b ++ [next]) this
    · simpa [pullBatch, hcond] using hb

theorem runBatch_results_length (w : World) (bh : String) (sl mp : Nat) :
    ∀ batch vis, ((runBatch w bh sl mp vis batch).2).length = batch.length := by
  intro batch
  induction batch with
  | nil => intro vis; simp [runBatch]
  | cons u rest ih => intro vis; simp [runBatch, ih]

theorem applyResults_scraped_le :
    ∀ rs st, (applyResults st rs).scraped.length ≤ st.scraped.length + rs.length := by
  intro rs
  induction rs with
  | nil => intro st; simp [applyResults]
  | cons r rest ih =>
    intro st
    cases r with
    | none =>
      calc (applyResults st rest).scraped.length ≤ st.scraped.length + rest.length := ih st
        _ ≤ st.scraped.length + (none :: rest).length := by simp
    | some pr =>
      have h := ih { st with
        scraped := st.scraped ++ [pr.pageData]
        emails := pr.emails.foldl addEmail st.emails
        queue := enqueueLinks st.visited st.queue pr.links }
      simp only [applyResults]
      simp only [List.length_append, List.length_cons, List.length_nil] at h ⊢
      omega

theorem crawlLoop_scraped_le (w : World) (bh : String) (mp mc : Nat) :
    ∀ fuel st, st.scraped.length ≤ mp → (crawlLoop w bh mp mc fuel st).scraped.length ≤ mp := by
  intro fuel
  induction fuel with
  | zero => intro st h; simpa [crawlLoop] using h
  | succ n ih =>
    intro st h
    by_cases hcond : 0 < st.queue.length ∧ st.scraped.length < mp
    · simp only [crawlLoop, hcond, if_true]
      by_cases hbe : (pullBatch st.visited st.scraped.length mc mp st.queue []).1.isEmpty
      · simpa [hbe] using h
      · simp only [hbe, Bool.false_eq_true, if_false]
        apply ih
        have hpull : st.scraped.length +
            (pullBatch st.visited st.scraped.length mc mp st.queue []).1.length ≤ mp := by
          have := pullBatch_length_le st.visited st.scraped.length mc mp st.queue []
          simp only [List.length_nil, Nat.add_zero] at this
          exact this (Nat.le_of_lt hcond.2)
        have happ := applyResults_scraped_le
          (runBatch w bh st.scraped.length mp st.visited
            (pullBatch st.visited st.scraped.length mc mp st.queue []).1).2
          { st with
            visited := (runBatch w bh st.scraped.length mp st.visited
              (pullBatch st.visited st.scraped.length mc mp st.queue []).1).1
            queue := (pullBatch st.visited st.scraped.length mc mp st.queue []).2 }
        simp only [runBatch_results_length] at happ
        exact Nat.le_trans happ hpull
    · simpa [crawlLoop, hcond] using h

/-- C1: for every crawl invocation `scrapeWebsite w seed maxPages` (any
browser behavior `w`, any fuel), the returned result satisfies
`pagesScraped ≤ maxPages`, and the returned `urls` sequence has length
exactly `pagesScraped`. -/
theorem claim1_budget_and_urls_length (w : World) (seedUrl : Url) (maxPages fuel : Nat) :
    (scrapeWebsite w seedUrl maxPages fuel).pagesScraped ≤ maxPages ∧
    (scrapeWebsite w seedUrl maxPages fuel).urls.length =
      (scrapeWebsite w seedUrl maxPages fuel).pagesScraped := by
  constructor
  · exact crawlLoop_scraped_le w seedUrl.hostname maxPages 3 fuel _ (Nat.zero_le _)
  · simp [scrapeWebsite]

/-! ### C10: seed fetch failure yields the empty result -/

theorem crawlLoop_empty_queue (w : World) (bh : String) (mp mc : Nat) :
    ∀ fuel st, st.queue = [] → crawlLoop w bh mp mc fuel st = st := by
  intro fuel st h
  cases fuel with
  | zero => rfl
  | succ n => simp [crawlLoop, h]

/-- C10: if fetching the seed page itself fails (the browser collaborator
returns `none` for the seed), `scrapeWebsite` resolves with
`pagesScraped = 0`, empty `urls`, empty `emails`, and `text = ""`. -/
theorem claim10_seed_failure (w : World) (seedUrl : Url) (maxPages fuel : Nat)
    (h : w seedUrl = none) :
    scrapeWebsite w seedUrl maxPages fuel =
      { text := "", pagesScraped := 0, urls := [], emails := [] } := by
  have hagg : aggregateText [] = "" := by decide
  cases fuel with
  | zero =>
    simp [scrapeWebsite, crawlLoop, hagg]
  | succ n =>
    cases maxPages with
    | zero =>
      simp [scrapeWebsite, crawlLoop, hagg]
    | succ k =>
      have hstep : crawlLoop w seedUrl.hostname (k + 1) 3 (n + 1)
          { scraped := [], visited := [], queue := [seedUrl], emails := [] } =
          { scraped := [], visited := [seedUrl], queue := [], emails := [] } := by
        have h2 : crawlLoop w seedUrl.hostname (k + 1) 3 n
            { scraped := [], visited := [seedUrl], queue := [], emails := [] } =
            { scraped := [], visited := [seedUrl], queue := [], emails := [] } :=
          crawlLoop_empty_queue w seedUrl.hostname (k + 1) 3 n _ rfl
        simp [crawlLoop, pullBatch, runBatch, processUrl, applyResults, h, h2]
      simp [scrapeWebsite, hstep, hagg]

def failSeed : Url := { protocol := "https:", hostname := "example.com", path := "/", fragment := "" }

/-- C10 witness: a concrete world in which every fetch fails. -/
theorem claim10_seed_failure_witness :
    scrapeWebsite (fun _ => none) failSeed 10 10 =
      { text := "", pagesScraped := 0, urls := [], emails := [] } :=
  claim10_seed_failure (fun _ => none) failSeed 10 10 rfl

/-! ### C5: truncation shape -/

/-- C5: for both post-processing paths (job worker and HTTP handler), with a
validated `maxLength` (the interfaces reject values below 1): when
`maxLength` is set and the untruncated aggregated text exceeds it, the
result text has length exactly `maxLength + 3` and `truncated = true`;
otherwise `truncated = false` and neither `originalTokenEstimate` nor
`originalCharacterCount` is present. -/
theorem claim5_truncation (r : CrawlResult) (m : Option Nat)
    (hval : ∀ k, m = some k → 1 ≤ k) :
    (∀ k, m = some k → k < r.text.length →
       (processJobResult r m).text.length = k + 3 ∧
       (processJobResult r m).truncated = true ∧
       (handleScrapeResponse r m).text.length = k + 3 ∧
       (handleScrapeResponse r m).truncated = true) ∧
    ((∀ k, m = some k → r.text.length ≤ k) →
       (processJobResult r m).truncated = false ∧
       (processJobResult r m).originalTokenEstimate = none ∧
       (processJobResult r m).originalCharacterCount = none ∧
       (handleScrapeResponse r m).truncated = false ∧
       (handleScrapeResponse r m).originalTokenEstimate = none ∧
       (handleScrapeResponse r m).originalCharacterCount = none) := by
  cases m with
  | none =>
    constructor
    · intro k hk
      cases hk
    · intro _
      simp [processJobResult, handleScrapeResponse, jsTruncCond]
  | some k =>
    have hk1 : 1 ≤ k := hval k rfl
    constructor
    · intro k' hk' hlt
      have hk : k' = k := (Option.some_inj.mp hk').symm
      subst hk
      have hcond : jsTruncCond (some k') r.text.length = true := by
        simp only [jsTruncCond, Bool.and_eq_true, decide_eq_true_eq]
        exact ⟨by omega, hlt⟩
      have h3 : ("...".toList).length = 3 := rfl
      have hlen : (String.mk (r.text.toList.take k' ++ "...".toList)).length = k' + 3 := by
        have hh : r.text.toList.length = r.text.length := rfl
        simp only [length_mk, List.length_append, List.length_take, h3]
        omega
      refine ⟨?_, ?_, ?_, ?_⟩
      · simp only [processJobResult, hcond, if_true, Option.getD_some]
        simpa using hlen
      · simp [processJobResult, hcond]
      · simp only [handleScrapeResponse, hcond, if_true, Option.getD_some]
        simpa using hlen
      · simp [handleScrapeResponse, hcond]
    · intro hle
      have hcond : jsTruncCond (some k) r.text.length = false := by
        have hk2 := hle k rfl
        simp only [jsTruncCond, Bool.and_eq_false_iff, decide_eq_false_iff_not]
        right
        omega
      simp [processJobResult, handleScrapeResponse, hcond]

/-- C5 witness: a 10-character text truncated at `maxLength = 4`, and a
3-character text left untouched by `maxLength = 4`. -/
theorem claim5_truncation_witness :
    ((processJobResult { text := "aaaaaaaaaa", pagesScraped := 1, urls := [], emails := [] }
        (some 4)).text.length = 4 + 3 ∧
     (processJobResult { text := "aaaaaaaaaa", pagesScraped := 1, urls := [], emails := [] }
        (some 4)).truncated = true ∧
     (handleScrapeResponse { text := "aaaaaaaaaa", pagesScraped := 1, urls := [], emails := [] }
        (some 4)).text.length = 4 + 3 ∧
     (handleScrapeResponse { text := "aaaaaaaaaa", pagesScraped := 1, urls := [], emails := [] }
        (some 4)).truncated = true) ∧
    ((processJobResult { text := "abc", pagesScraped := 1, urls := [], emails := [] }
        (some 4)).truncated = false ∧
     (processJobResult { text := "abc", pagesScraped := 1, urls := [], emails := [] }
        (some 4)).originalTokenEstimate = none ∧
     (processJobResult { text := "abc", pagesScraped := 1, urls := [], emails := [] }
        (some 4)).originalCharacterCount = none ∧
     (handleScrapeResponse { text := "abc", pagesScraped := 1, urls := [], emails := [] }
        (some 4)).truncated = false ∧
     (handleScrapeResponse { text := "abc", pagesScraped := 1, urls := [], emails := [] }
        (some 4)).originalTokenEstimate = none ∧
     (handleScrapeResponse { text := "abc", pagesScraped := 1, urls := [], emails := [] }
        (some 4)).originalCharacterCount = none) :=
  ⟨(claim5_truncation { text := "aaaaaaaaaa", pagesScraped := 1, urls := [], emails := [] }
      (some 4) (by intro k hk; cases hk; decide)).1 4 rfl (by decide),
   (claim5_truncation { text := "abc", pagesScraped := 1, urls := [], emails := [] }
      (some 4) (by intro k hk; cases hk; decide)).2
      (by intro k hk; cases hk; decide)⟩

/-! ### C6: token estimates -/

def handlerBugInput : CrawlResult :=
  { text := String.mk (List.replicate 100 'a'), pagesScraped := 1, urls := [], emails := [] }

/-- C6: evaluation of the HTTP handler at a failing input.  With an
aggregated text of 100 characters and `maxLength = 5`, the handler truncates
(`originalCharacterCount = 100`) but reports `originalTokenEstimate = 2`
(the estimate of the already-truncated 8-character text), whereas
`ceil(originalCharacterCount / 4) = 25` — which is what the worker path
(`processJobResult`) correctly returns for the same input. -/
theorem claim6_handler_original_estimate_bug :
    (handleScrapeResponse handlerBugInput (some 5)).truncated = true ∧
    (handleScrapeResponse handlerBugInput (some 5)).originalCharacterCount = some 100 ∧
    (handleScrapeResponse handlerBugInput (some 5)).originalTokenEstimate = some 2 ∧
    (100 + 3) / 4 = 25 ∧
    (processJobResult handlerBugInput (some 5)).originalTokenEstimate = some 25 := by
  decide

/-! ### C9: the Launch Limiter -/

/-- The inductive invariant of the limiter under the usage protocol. -/
def LimInv (n : Nat) (s : LimiterState) : Prop :=
  s.maxConcurrent = n ∧
  s.activeLaunches = (s.holders.length : Int) ∧
  s.holders.length ≤ n ∧
  (s.waitQueue ≠ [] → s.holders.length = n) ∧
  s.holders.Nodup ∧
  s.waitQueue.Nodup ∧
  ∀ x ∈ s.waitQueue, x ∉ s.holders

theorem limInv_init (n : Nat) : LimInv n (initLimiter n) := by
  refine ⟨rfl, rfl, Nat.zero_le n, ?_, List.nodup_nil, List.nodup_nil, ?_⟩ <;> simp [initLimiter]

theorem limInv_acquire {n : Nat} {s : LimiterState} {c : Nat} (hinv : LimInv n s)
    (hh : c ∉ s.holders) (hw : c ∉ s.waitQueue) : LimInv n (acquire s c) := by
  obtain ⟨hmax, hact, hle, hwq, hnd, hwnd, hdisj⟩ := hinv
  by_cases hlt : s.activeLaunches < (s.maxConcurrent : Int)
  · have hstate : acquire s c =
        { s with activeLaunches := s.activeLaunches + 1, holders := s.holders ++ [c] } := by
      simp [acquire, hlt]
    have hlen : s.holders.length < n := by
      rw [hact, hmax] at hlt
      exact_mod_cast hlt
    have hwq_nil : s.waitQueue = [] := by
      by_contra hne
      exact absurd (hwq hne) (Nat.ne_of_lt hlen)
    rw [hstate]
    refine ⟨hmax, ?_, ?_, ?_, ?_, hwnd, ?_⟩
    · simp [hact]
    · simp only [List.length_append, List.length_cons, List.length_nil]
      omega
    · intro hne
      exact absurd hwq_nil hne
    · exact List.Nodup.append hnd (List.nodup_singleton c)
        (by simpa using fun hc => hh hc)
    · intro x hx
      rw [hwq_nil] at hx
      cases hx
  · have hstate : acquire s c = { s with waitQueue := s.waitQueue ++ [c] } := by
      simp [acquire, hlt]
    rw [hstate]
    refine ⟨hmax, hact, hle, ?_, hnd, ?_, ?_⟩
    · intro _
      have h2 : n ≤ s.holders.length := by
        have h1 : (s.maxConcurrent : Int) ≤ s.activeLaunches := le_of_not_lt hlt
        rw [hact, hmax] at h1
        exact_mod_cast h1
      dsimp only
      omega
    · exact List.Nodup.append hwnd (List.nodup_singleton c)
        (by simpa using fun hc => hw hc)
    · intro x hx
      rcases List.mem_append.mp hx with h1 | h1
      · exact hdisj x h1
      · rcases List.mem_singleton.mp h1 with rfl
        exact hh

theorem limInv_release {n : Nat} {s : LimiterState} {c : Nat} (hinv : LimInv n s)
    (hc : c ∈ s.holders) : LimInv n (release s c) := by
  obtain ⟨hmax, hact, hle, hwq, hnd, hwnd, hdisj⟩ := hinv
  have hpos : 1 ≤ s.holders.length := List.length_pos.mpr (List.ne_nil_of_mem hc)
  have herase : (s.holders.erase c).length = s.holders.length - 1 :=
    List.length_erase_of_mem hc
  have hnd' : (s.holders.erase c).Nodup := List.Nodup.erase c hnd
  cases hq : s.waitQueue with
  | nil =>
    have hstate : release s c =
        { s with activeLaunches := s.activeLaunches - 1, holders := s.holders.erase c,
                 waitQueue := [] } := by
      simp [release, hq]
    rw [hstate]
    refine ⟨hmax, ?_, ?_, ?_, hnd', ?_, ?_⟩
    · dsimp only
      rw [hact, herase]
      push_cast
      omega
    · dsimp only
      rw [herase]; omega
    · intro hne; exact absurd rfl hne
    · exact List.nodup_nil
    · intro x hx; cases hx
  | cons next rest =>
    have hfull : s.holders.length = n := hwq (by rw [hq]; exact List.cons_ne_nil _ _)
    have hnextw : next ∈ s.waitQueue := by rw [hq]; exact List.mem_cons_self _ _
    have hnexth : next ∉ s.holders := hdisj next hnextw
    have hwnd' : rest.Nodup ∧ next ∉ rest := by
      rw [hq] at hwnd
      exact ⟨(List.nodup_cons.mp hwnd).2, (List.nodup_cons.mp hwnd).1⟩
    have hstate : release s c =
        { s with activeLaunches := s.activeLaunches - 1 + 1,
                 holders := s.holders.erase c ++ [next], waitQueue := rest } := by
      simp [release, hq]
    rw [hstate]
    refine ⟨hmax, ?_, ?_, ?_, ?_, hwnd'.1, ?_⟩
    · simp only [List.length_append, List.length_cons, List.length_nil]
      rw [hact, herase]
      push_cast
      omega
    · simp only [List.length_append, List.length_cons, List.length_nil]
      rw [herase]
      omega
    · intro _
      simp only [List.length_append, List.length_cons, List.length_nil]
      rw [herase]
      omega
    · exact List.Nodup.append hnd' (List.nodup_singleton next)
        (by simpa using fun hmem => hnexth (List.mem_of_mem_erase hmem))
    · intro x hx
      have hxw : x ∈ s.waitQueue := by rw [hq]; exact List.mem_cons_of_mem _ hx
      intro hmem
      rcases List.mem_append.mp hmem with h1 | h1
      · exact hdisj x hxw (List.mem_of_mem_erase h1)
      · rcases List.mem_singleton.mp h1 with rfl
        exact hwnd'.2 hx

theorem reachable_limInv {n : Nat} {s : LimiterState} (h : Reachable n s) : LimInv n s := by
  induction h with
  | init => exact limInv_init n
  | acq _ hh hw ih => exact limInv_acquire ih hh hw
  | rel _ hc ih => exact limInv_release ih hc

/-- C9: with capacity `N`, under every interleaving of protocol-respecting
`acquire`/`release` calls (each caller releases only what it holds), the
number of concurrently held permits never exceeds `N`; an `acquire` issued
while the capacity is exhausted grants nothing and appends the caller to the
wait queue; and a `release` with waiters present hands the freed slot to the
head of the FIFO wait queue (the longest-waiting caller), leaving the active
count unchanged. -/
theorem claim9_limiter_semantics :
    (∀ (n : Nat) (s : LimiterState), Reachable n s → s.holders.length ≤ n) ∧
    (∀ (s : LimiterState) (c : Nat), (s.maxConcurrent : Int) ≤ s.activeLaunches →
       acquire s c = { s with waitQueue := s.waitQueue ++ [c] }) ∧
    (∀ (s : LimiterState) (c next : Nat) (rest : List Nat), s.waitQueue = next :: rest →
       (release s c).waitQueue = rest ∧
       (release s c).holders = s.holders.erase c ++ [next] ∧
       (release s c).activeLaunches = s.activeLaunches) := by
  refine ⟨?_, ?_, ?_⟩
  · intro n s h
    exact (reachable_limInv h).2.2.1
  · intro s c hfull
    have hlt : ¬(s.activeLaunches < (s.maxConcurrent : Int)) := not_lt.mpr hfull
    simp [acquire, hlt]
  · intro s c next rest hq
    refine ⟨?_, ?_, ?_⟩ <;> simp [release, hq] <;> omega

def limW0 : LimiterState := initLimiter 2

def limW1 : LimiterState := acquire limW0 10

def limW2 : LimiterState := acquire limW1 20

def limW3 : LimiterState := acquire limW2 30

theorem limW3_reachable : Reachable 2 limW3 := by
  apply Reachable.acq (s := limW2) (c := 30)
  · apply Reachable.acq (s := limW1) (c := 20)
    · apply Reachable.acq (s := limW0) (c := 10)
      · exact Reachable.init
      · decide
      · decide
    · decide
    · decide
  · decide
  · decide

/-- C9 witness: capacity 2, callers 10 and 20 hold permits, caller 30's
acquire suspends; releasing hands the slot to caller 30. -/
theorem claim9_limiter_semantics_witness :
    limW3.holders.length ≤ 2 ∧
    acquire limW2 30 = { limW2 with waitQueue := limW2.waitQueue ++ [30] } ∧
    ((release limW3 10).waitQueue = [] ∧
     (release limW3 10).holders = limW3.holders.erase 10 ++ [30] ∧
     (release limW3 10).activeLaunches = limW3.activeLaunches) :=
  ⟨claim9_limiter_semantics.1 2 limW3 limW3_reachable,
   claim9_limiter_semantics.2.1 limW2 30 (by decide),
   claim9_limiter_semantics.2.2 limW3 10 30 [] (by decide)⟩

/-! ### C2: no URL is scraped twice -/

/-- The successful results of a batch, in order. -/
def someResults (rs : List (Option ProcResult)) : List ProcResult := rs.filterMap id

theorem processUrl_visited_mono (w : World) (v : List Url) (u : Url) (bh : String)
    (sl mp : Nat) : ∀ x ∈ v, x ∈ (processUrl w v u bh sl mp).1 := by
  intro x hx
  by_cases hv : u ∈ v
  · simpa [processUrl, hv] using hx
  · cases hw : w u with
    | none => simp [processUrl, hv, hw]; right; exact hx
    | some page => simp [processUrl, hv, hw]; right; exact hx

theorem processUrl_some_spec (w : World) (v : List Url) (u : Url) (bh : String)
    (sl mp : Nat) (r : ProcResult) (h : (processUrl w v u bh sl mp).2 = some r) :
    r.pageData.url = u ∧ u ∉ v ∧ u ∈ (processUrl w v u bh sl mp).1 := by
  by_cases hv : u ∈ v
  · simp [processUrl, hv] at h
  · cases hw : w u with
    | none => simp [processUrl, hv, hw] at h
    | some page =>
      simp only [processUrl, hv, if_false, hw, Option.some_inj] at h
      subst h
      refine ⟨rfl, hv, ?_⟩
      simp [processUrl, hv, hw]

theorem runBatch_visited_mono (w : World) (bh : String) (sl mp : Nat) :
    ∀ batch vis x, x ∈ vis → x ∈ (runBatch w bh sl mp vis batch).1 := by
  intro batch
  induction batch with
  | nil => intro vis x hx; simpa [runBatch] using hx
  | cons u rest ih =>
    intro vis x hx
    simp only [runBatch]
    exact ih _ x (processUrl_visited_mono w vis u bh sl mp x hx)

theorem runBatch_new_urls (w : World) (bh : String) (sl mp : Nat) :
    ∀ batch vis,
      ((someResults (runBatch w bh sl mp vis batch).2).map (fun r => r.pageData.url)).Nodup ∧
      ∀ r ∈ someResults (runBatch w bh sl mp vis batch).2,
        r.pageData.url ∉ vis ∧ r.pageData.url ∈ (runBatch w bh sl mp vis batch).1 := by
  intro batch
  induction batch with
  | nil =>
    intro vis
    refine ⟨by simp [runBatch, someResults], ?_⟩
    intro r hr
    simp [runBatch, someResults] at hr
  | cons u rest ih =>
    intro vis
    obtain ⟨ihnd, ihmem⟩ := ih (processUrl w vis u bh sl mp).1
    cases hpu : (processUrl w vis u bh sl mp).2 with
    | none =>
      constructor
      · simpa [runBatch, someResults, hpu] using ihnd
      · intro r hr
        simp only [runBatch, someResults, hpu, List.filterMap_cons, id] at hr
        have h2 := ihmem r (by simpa [someResults] using hr)
        refine ⟨fun hmem => h2.1 (processUrl_visited_mono w vis u bh sl mp _ hmem), ?_⟩
        simpa [runBatch] using h2.2
    | some r0 =>
      obtain ⟨hurl, hnotv, hinv'⟩ := processUrl_some_spec w vis u bh sl mp r0 hpu
      constructor
      · simp only [runBatch, someResults, hpu, List.filterMap_cons, id, List.map_cons,
          List.nodup_cons]
        constructor
        · intro hmem
          simp only [List.mem_map] at hmem
          obtain ⟨r1, hr1, hr1url⟩ := hmem
          have h2 := ihmem r1 (by simpa [someResults] using hr1)
          rw [hr1url, hurl] at h2
          exact h2.1 hinv'
        · simpa [someResults] using ihnd
      · intro r hr
        simp only [runBatch, someResults, hpu, List.filterMap_cons, id, List.mem_cons] at hr
        rcases hr with rfl | hr
        · rw [hurl]
          exact ⟨hnotv, by simpa [runBatch] using
            runBatch_visited_mono w bh sl mp rest (processUrl w vis u bh sl mp).1 u hinv'⟩
        · have h2 := ihmem r (by simpa [someResults] using hr)
          refine ⟨fun hmem => h2.1 (processUrl_visited_mono w vis u bh sl mp _ hmem), ?_⟩
          simpa [runBatch] using h2.2

theorem applyResults_visited_eq :
    ∀ rs st, (applyResults st rs).visited = st.visited := by
  intro rs
  induction rs with
  | nil => intro st; rfl
  | cons r rest ih =>
    intro st
    cases r with
    | none => exact ih st
    | some pr => exact ih _

theorem applyResults_scraped_eq :
    ∀ rs st, (applyResults st rs).scraped =
      st.scraped ++ (someResults rs).map (fun r => r.pageData) := by
  intro rs
  induction rs with
  | nil => intro st; simp [applyResults, someResults]
  | cons r rest ih =>
    intro st
    cases r with
    | none => simpa [applyResults, someResults] using ih st
    | some pr =>
      simp only [applyResults, someResults, List.filterMap_cons, id, List.map_cons]
      rw [ih]
      simp [someResults]

/-- The invariant backing C2: scraped URLs are distinct and all visited. -/
def UrlsInv (st : CrawlState) : Prop :=
  (st.scraped.map (fun p => p.url)).Nodup ∧ ∀ p ∈ st.scraped, p.url ∈ st.visited

theorem crawlLoop_urlsInv (w : World) (bh : String) (mp mc : Nat) :
    ∀ fuel st, UrlsInv st → UrlsInv (crawlLoop w bh mp mc fuel st) := by
  intro fuel
  induction fuel with
  | zero => intro st h; simpa [crawlLoop] using h
  | succ n ih =>
    intro st h
    by_cases hcond : 0 < st.queue.length ∧ st.scraped.length < mp
    · simp only [crawlLoop, hcond, if_true]
      by_cases hbe : (pullBatch st.visited st.scraped.length mc mp st.queue []).1.isEmpty
      · simpa [hbe] using h
      · simp only [hbe, Bool.false_eq_true, if_false]
        apply ih
        set batch := (pullBatch st.visited st.scraped.length mc mp st.queue []).1 with hbatch
        set rb := runBatch w bh st.scraped.length mp st.visited batch with hrb
        obtain ⟨hnd, hvis⟩ := h
        obtain ⟨hnewnd, hnewmem⟩ := runBatch_new_urls w bh st.scraped.length mp batch st.visited
        constructor
        · rw [applyResults_scraped_eq]
          simp only [List.map_append, List.map_map]
          apply List.Nodup.append hnd
          · simpa [Function.comp] using hnewnd
          · intro x hx hx2
            simp only [List.mem_map] at hx hx2
            obtain ⟨p, hp, hpx⟩ := hx
            obtain ⟨r, hr, hrx⟩ := hx2
            have h1 : p.url ∈ st.visited := hvis p hp
            have h2 := (hnewmem r hr).1
            apply h2
            simp only [Function.comp_apply] at hrx
            rw [hrx, ← hpx]
            exact h1
        · intro p hp
          rw [applyResults_scraped_eq] at hp
          rw [applyResults_visited_eq]
          simp only [List.mem_append, List.mem_map] at hp
          rcases hp with hp | hp
          · exact runBatch_visited_mono w bh st.scraped.length mp batch st.visited _ (hvis p hp)
          · obtain ⟨r, hr, hrp⟩ := hp
            rw [← hrp]
            exact (hnewmem r hr).2
    · simpa [crawlLoop, hcond] using h

/-- C2: for every crawl invocation (any browser behavior, including cyclic
link graphs such as A→B→A), no URL appears twice in the returned `urls`
sequence: once a URL is marked visited it is never fetched again within the
session. -/
theorem claim2_urls_nodup (w : World) (seedUrl : Url) (maxPages fuel : Nat) :
    (scrapeWebsite w seedUrl maxPages fuel).urls.Nodup := by
  have h := crawlLoop_urlsInv w seedUrl.hostname maxPages 3 fuel
    { scraped := [], visited := [], queue := [seedUrl], emails := [] }
    ⟨List.nodup_nil, by intro p hp; cases hp⟩
  exact h.1

/-! ### C4: same-host discipline -/

theorem dedupGo_subset : ∀ l seen x, x ∈ dedupGo seen l → x ∈ l := by
  intro l
  induction l with
  | nil => intro seen x hx; simpa [dedupGo] using hx
  | cons u rest ih =>
    intro seen x hx
    by_cases hu : u ∈ seen
    · simp only [dedupGo, hu, if_true] at hx
      exact List.mem_cons_of_mem _ (ih seen x hx)
    · simp only [dedupGo, hu, if_false, List.mem_cons] at hx
      rcases hx with rfl | hx
      · exact List.mem_cons_self _ _
      · exact List.mem_cons_of_mem _ (ih _ x hx)

theorem extractSameDomainLinks_spec (anchors : List Url) (bh : String) :
    ∀ u ∈ extractSameDomainLinks anchors bh,
      u.hostname = bh ∧ (u.protocol = "http:" ∨ u.protocol = "https:") := by
  intro u hu
  have h1 : u ∈ (anchors.filter (sameDomainHttp bh)).map stripFragment :=
    dedupGo_subset _ [] u hu
  simp only [List.mem_map, List.mem_filter] at h1
  obtain ⟨a, ⟨_, ha⟩, rfl⟩ := h1
  simp only [sameDomainHttp, Bool.and_eq_true, Bool.or_eq_true, beq_iff_eq] at ha
  exact ⟨ha.1, ha.2⟩

theorem processUrl_links_spec (w : World) (v : List Url) (u : Url) (bh : String)
    (sl mp : Nat) (r : ProcResult) (h : (processUrl w v u bh sl mp).2 = some r) :
    ∀ l ∈ r.links, l.hostname = bh ∧ (l.protocol = "http:" ∨ l.protocol = "https:") := by
  by_cases hv : u ∈ v
  · simp [processUrl, hv] at h
  · cases hw : w u with
    | none => simp [processUrl, hv, hw] at h
    | some page =>
      simp only [processUrl, hv, if_false, hw, Option.some_inj] at h
      subst h
      intro l hl
      simp only at hl
      by_cases hbudget : sl + 1 < mp
      · rw [if_pos hbudget] at hl
        exact extractSameDomainLinks_spec page.anchors bh l hl
      · rw [if_neg hbudget] at hl
        cases hl

theorem runBatch_links_spec (w : World) (bh : String) (sl mp : Nat) :
    ∀ batch vis r, r ∈ someResults (runBatch w bh sl mp vis batch).2 →
      ∀ l ∈ r.links, l.hostname = bh ∧ (l.protocol = "http:" ∨ l.protocol = "https:") := by
  intro batch
  induction batch with
  | nil => intro vis r hr; simp [runBatch, someResults] at hr
  | cons u rest ih =>
    intro vis r hr
    cases hpu : (processUrl w vis u bh sl mp).2 with
    | none =>
      simp only [runBatch, someResults, hpu, List.filterMap_cons, id] at hr
      exact ih _ r (by simpa [someResults] using hr)
    | some r0 =>
      simp only [runBatch, someResults, hpu, List.filterMap_cons, id, List.mem_cons] at hr
      rcases hr with rfl | hr
      · exact processUrl_links_spec w vis u bh sl mp r hpu
      · exact ih _ r (by simpa [someResults] using hr)

theorem runBatch_urls_from_batch (w : World) (bh : String) (sl mp : Nat) :
    ∀ batch vis r, r ∈ someResults (runBatch w bh sl mp vis batch).2 →
      r.pageData.url ∈ batch := by
  intro batch
  induction batch with
  | nil => intro vis r hr; simp [runBatch, someResults] at hr
  | cons u rest ih =>
    intro vis r hr
    cases hpu : (processUrl w vis u bh sl mp).2 with
    | none =>
      simp only [runBatch, someResults, hpu, List.filterMap_cons, id] at hr
      exact List.mem_cons_of_mem _ (ih _ r (by simpa [someResults] using hr))
    | some r0 =>
      simp only [runBatch, someResults, hpu, List.filterMap_cons, id, List.mem_cons] at hr
      rcases hr with rfl | hr
      · rw [(processUrl_some_spec w vis u bh sl mp r hpu).1]
        exact List.mem_cons_self _ _
      · exact List.mem_cons_of_mem _ (ih _ r (by simpa [someResults] using hr))

theorem pullBatch_mem_spec (v : List Url) (sl mc mp : Nat) :
    ∀ q b,
      (∀ x ∈ (pullBatch v sl mc mp q b).1, x ∈ b ∨ x ∈ q) ∧
      (∀ x ∈ (pullBatch v sl mc mp q b).2, x ∈ q) := by
  intro q
  induction q with
  | nil =>
    intro b
    constructor
    · intro x hx; left; simpa [pullBatch] using hx
    · intro x hx; simp [pullBatch] at hx
  | cons next rest ih =>
    intro b
    by_cases hcond : b.length < mc ∧ sl + b.length < mp
    · by_cases hv : next ∈ v
      · constructor
        · intro x hx
          simp only [pullBatch, hcond, if_true, hv] at hx
          rcases (ih b).1 x hx with h | h
          · exact Or.inl h
          · exact Or.inr (List.mem_cons_of_mem _ h)
        · intro x hx
          simp only [pullBatch, hcond, if_true, hv] at hx
          exact List.mem_cons_of_mem _ ((ih b).2 x hx)
      · constructor
        · intro x hx
          simp only [pullBatch, hcond, if_true, hv, if_false] at hx
          rcases (ih (b ++ [next])).1 x hx with h | h
          · rcases List.mem_append.mp h with h2 | h2
            · exact Or.inl h2
            · exact Or.inr (by
                rcases List.mem_singleton.mp h2 with rfl
                exact List.mem_cons_self _ _)
          · exact Or.inr (List.mem_cons_of_mem _ h)
        · intro x hx
          simp only [pullBatch, hcond, if_true, hv, if_false] at hx
          exact List.mem_cons_of_mem _ ((ih (b ++ [next])).2 x hx)
    · constructor
      · intro x hx
        simp only [pullBatch, hcond, if_false] at hx
        exact Or.inl hx
      · intro x hx
        simp only [pullBatch, hcond, if_false] at hx
        exact hx

theorem enqueueLinks_mem (v : List Url) :
    ∀ ls q x, x ∈ enqueueLinks v q ls → x ∈ q ∨ (x ∈ ls ∧ x ∉ v ∧ x ∉ q) := by
  intro ls
  induction ls with
  | nil => intro q x hx; exact Or.inl (by simpa [enqueueLinks] using hx)
  | cons l rest ih =>
    intro q x hx
    simp only [enqueueLinks] at hx
    by_cases hl : l ∉ v ∧ l ∉ q
    · rw [if_pos hl] at hx
      rcases ih _ x hx with h | h
      · rcases List.mem_append.mp h with h2 | h2
        · exact Or.inl h2
        · rcases List.mem_singleton.mp h2 with rfl
          exact Or.inr ⟨List.mem_cons_self _ _, hl.1, hl.2⟩
      · refine Or.inr ⟨List.mem_cons_of_mem _ h.1, h.2.1, fun hq => h.2.2 (List.mem_append_left _ hq)⟩
    · rw [if_neg hl] at hx
      rcases ih _ x hx with h | h
      · exact Or.inl h
      · exact Or.inr ⟨List.mem_cons_of_mem _ h.1, h.2.1, h.2.2⟩

theorem applyResults_queue_mem :
    ∀ rs st x, x ∈ (applyResults st rs).queue →
      x ∈ st.queue ∨ ∃ r ∈ someResults rs, x ∈ r.links := by
  intro rs
  induction rs with
  | nil => intro st x hx; exact Or.inl hx
  | cons r rest ih =>
    intro st x hx
    cases r with
    | none =>
      rcases ih st x hx with h | ⟨r1, hr1, hx1⟩
      · exact Or.inl h
      · exact Or.inr ⟨r1, by simpa [someResults] using hr1, hx1⟩
    | some pr =>
      simp only [applyResults] at hx
      rcases ih _ x hx with h | ⟨r1, hr1, hx1⟩
      · rcases enqueueLinks_mem st.visited pr.links st.queue x h with h2 | h2
        · exact Or.inl h2
        · exact Or.inr ⟨pr, by simp [someResults], h2.1⟩
      · exact Or.inr ⟨r1, by simp [someResults]; right; simpa [someResults] using hr1, hx1⟩

/-- A URL a crawl session may legitimately hold: the seed itself, or a
same-host http/https URL. -/
def goodUrl (seedUrl : Url) (u : Url) : Prop :=
  u = seedUrl ∨ (u.hostname = seedUrl.hostname ∧ (u.protocol = "http:" ∨ u.protocol = "https:"))

/-- The invariant backing C4. -/
def HostInv (seedUrl : Url) (st : CrawlState) : Prop :=
  (∀ u ∈ st.queue, goodUrl seedUrl u) ∧ (∀ p ∈ st.scraped, goodUrl seedUrl p.url)

theorem crawlLoop_hostInv (w : World) (seedUrl : Url) (mp mc : Nat) :
    ∀ fuel st, HostInv seedUrl st →
      HostInv seedUrl (crawlLoop w seedUrl.hostname mp mc fuel st) := by
  intro fuel
  induction fuel with
  | zero => intro st h; simpa [crawlLoop] using h
  | succ n ih =>
    intro st h
    by_cases hcond : 0 < st.queue.length ∧ st.scraped.length < mp
    · simp only [crawlLoop, hcond, if_true]
      by_cases hbe : (pullBatch st.visited st.scraped.length mc mp st.queue []).1.isEmpty
      · simp only [hbe, if_true]
        exact ⟨fun u hu => h.1 u ((pullBatch_mem_spec st.visited st.scraped.length mc mp
          st.queue []).2 u hu), h.2⟩
      · simp only [hbe, Bool.false_eq_true, if_false]
        apply ih
        set batch := (pullBatch st.visited st.scraped.length mc mp st.queue []).1 with hbatch
        obtain ⟨hq, hs⟩ := h
        have hbatch_good : ∀ u ∈ batch, goodUrl seedUrl u := by
          intro u hu
          rcases (pullBatch_mem_spec st.visited st.scraped.length mc mp st.queue []).1 u hu with
            h2 | h2
          · cases h2
          · exact hq u h2
        constructor
        · intro u hu
          rcases applyResults_queue_mem _ _ u hu with h2 | ⟨r, hr, hl⟩
          · exact hq u ((pullBatch_mem_spec st.visited st.scraped.length mc mp st.queue []).2 u h2)
          · have h3 := runBatch_links_spec w seedUrl.hostname st.scraped.length mp batch
              st.visited r hr u hl
            exact Or.inr h3
        · intro p hp
          rw [applyResults_scraped_eq] at hp
          rcases List.mem_append.mp hp with h2 | h2
          · exact hs p h2
          · simp only [List.mem_map] at h2
            obtain ⟨r, hr, hrp⟩ := h2
            have h3 := runBatch_urls_from_batch w seedUrl.hostname st.scraped.length mp batch
              st.visited r hr
            rw [← hrp]
            exact hbatch_good _ h3
    · simpa [crawlLoop, hcond] using h

/-- C4: a crawl session never scrapes a page whose host differs from the
seed URL's: every URL in the returned `urls` other than the seed itself has
the seed's hostname, and only http/https links are followed. -/
theorem claim4_same_host (w : World) (seedUrl : Url) (maxPages fuel : Nat) (u : Url)
    (hu : u ∈ (scrapeWebsite w seedUrl maxPages fuel).urls) (hne : u ≠ seedUrl) :
    u.hostname = seedUrl.hostname ∧ (u.protocol = "http:" ∨ u.protocol = "https:") := by
  have h := crawlLoop_hostInv w seedUrl maxPages 3 fuel
    { scraped := [], visited := [], queue := [seedUrl], emails := [] }
    ⟨by intro x hx; rcases List.mem_singleton.mp hx with rfl; exact Or.inl rfl,
     by intro p hp; cases hp⟩
  simp only [scrapeWebsite, List.mem_map] at hu
  obtain ⟨p, hp, hpu⟩ := hu
  rcases h.2 p hp with h2 | h2
  · rw [← hpu] at hne
    exact absurd h2 hne
  · rw [← hpu]
    exact h2

def w4Seed : Url := { protocol := "https:", hostname := "site.test", path := "/", fragment := "" }

def w4Link : Url := { protocol := "https:", hostname := "site.test", path := "/a", fragment := "" }

/-- A two-page world: the seed links to one same-host page. -/
def w4World : World := fun u =>
  if u = w4Seed then
    some { title := "t", content := "x", headings := [], paragraphs := [],
           anchors := [w4Link], emails := [] }
  else if u = w4Link then
    some { title := "t2", content := "y", headings := [], paragraphs := [],
           anchors := [], emails := [] }
  else none

/-- C4 witness: the discovered non-seed page of a concrete crawl has the
seed's hostname and an http(s) protocol. -/
theorem claim4_same_host_witness :
    w4Link.hostname = w4Seed.hostname ∧
      (w4Link.protocol = "http:" ∨ w4Link.protocol = "https:") :=
  claim4_same_host w4World w4Seed 2 2 w4Link (by decide) (by decide)

/-! ### C3: the enqueue condition -/

def c3Seed : Url := { protocol := "https:", hostname := "site.test", path := "/", fragment := "" }

def c3A : Url := { protocol := "https:", hostname := "site.test", path := "/a", fragment := "" }

def c3B : Url := { protocol := "https:", hostname := "site.test", path := "/b", fragment := "" }

/-- A world where the seed links to two same-host pages. -/
def c3World : World := fun u =>
  if u = c3Seed then
    some { title := "t", content := "x", headings := [], paragraphs := [],
           anchors := [c3A, c3B], emails := [] }
  else none

/-- C3 counterexample: with `maxPages = 2`, after the seed's batch the
session has collected 1 page yet holds 2 queued URLs — the second link was
enqueued although the page budget was already reached by the
(collected + already-queued) count, so the frontier grows beyond what is
needed to reach `maxPages`. -/
theorem claim3_counterexample :
    2 <
      (crawlLoop c3World "site.test" 2 3 1
        { scraped := [], visited := [], queue := [c3Seed], emails := [] }).scraped.length +
      (crawlLoop c3World "site.test" 2 3 1
        { scraped := [], visited := [], queue := [c3Seed], emails := [] }).queue.length := by
  decide

/-- C3 (amended): a discovered link is enqueued only if it is not visited
and not already queued; the page budget gates only whether a fetched page
extracts links at all — `processUrl` returns no links once
`collected-at-dispatch + 1` reaches `maxPages`.  The frontier may still
exceed `maxPages - collected` (see the counterexample). -/
theorem claim3_enqueue_condition :
    (∀ (v q ls : List Url) (x : Url), x ∈ enqueueLinks v q ls →
       x ∈ q ∨ (x ∈ ls ∧ x ∉ v ∧ x ∉ q)) ∧
    (∀ (w : World) (v : List Url) (u : Url) (bh : String) (sl mp : Nat) (r : ProcResult),
       mp ≤ sl + 1 → (processUrl w v u bh sl mp).2 = some r → r.links = []) := by
  constructor
  · intro v q ls x hx
    exact enqueueLinks_mem v ls q x hx
  · intro w v u bh sl mp r hbudget h
    by_cases hv : u ∈ v
    · simp [processUrl, hv] at h
    · cases hw : w u with
      | none => simp [processUrl, hv, hw] at h
      | some page =>
        simp only [processUrl, hv, if_false, hw, Option.some_inj] at h
        subst h
        simp only
        rw [if_neg (by omega)]

def c3ProcR : ProcResult :=
  { pageData := { url := c3Seed, title := "t", headings := [], paragraphs := [], content := "x" },
    links := [], emails := [] }

/-- C3 witness: the amended enqueue condition at a concrete input, and the
budget-gated link extraction at a concrete `processUrl` call with the
budget reached. -/
theorem claim3_enqueue_condition_witness :
    (c3B ∈ [c3A] ∨ (c3B ∈ [c3B] ∧ c3B ∉ ([] : List Url) ∧ c3B ∉ [c3A])) ∧
    c3ProcR.links = [] :=
  ⟨claim3_enqueue_condition.1 [] [c3A] [c3B] c3B (by decide),
   claim3_enqueue_condition.2 c3World [] c3Seed "site.test" 1 2 c3ProcR (by decide) (by decide)⟩

/-! ### C7: the noise-filter drop rule -/

theorem startsWithChars_subset : ∀ (p s : List Char), startsWithChars p s = true →
    ∀ c ∈ p, c ∈ s := by
  intro p
  induction p with
  | nil => intro s _ c hc; cases hc
  | cons a ps ih =>
    intro s h c hc
    cases s with
    | nil => simp [startsWithChars] at h
    | cons b rest =>
      simp only [startsWithChars, Bool.and_eq_true, beq_iff_eq] at h
      rcases List.mem_cons.mp hc with rfl | hc
      · rw [← h.1]; exact List.mem_cons_self _ _
      · exact List.mem_cons_of_mem _ (ih rest h.2 c hc)

theorem containsSub_subset : ∀ (s p : List Char), containsSub p s = true →
    ∀ c ∈ p, c ∈ s := by
  intro s
  induction s with
  | nil =>
    intro p h c hc
    simp only [containsSub, List.isEmpty_iff] at h
    subst h
    cases hc
  | cons b rest ih =>
    intro p h c hc
    simp only [containsSub, Bool.or_eq_true] at h
    rcases h with h | h
    · exact startsWithChars_subset p (b :: rest) h c hc
    · exact List.mem_cons_of_mem _ (ih p h c hc)

theorem replaceCRLF_eq_self : ∀ (s : List Char), '\r' ∉ s → replaceCRLF s = s := by
  intro s
  induction s with
  | nil => intro _; rfl
  | cons c rest ih =>
    intro h
    have hc : c ≠ '\r' := fun hh => h (hh ▸ List.mem_cons_self _ _)
    have hrest : '\r' ∉ rest := fun hh => h (List.mem_cons_of_mem _ hh)
    cases rest with
    | nil => rfl
    | cons d rest2 =>
      have hcd : ¬(c = '\r' ∧ d = '\n') := fun hh => hc hh.1
      simp only [replaceCRLF, hcd, if_false]
      rw [ih hrest]

theorem splitSecsGo_no_sep : ∀ (s acc : List Char), '\n' ∉ s → '\r' ∉ s →
    splitSecsGo acc 'x' 0 s = [acc.reverse ++ s] := by
  intro s
  induction s with
  | nil => intro acc _ _; simp [splitSecsGo]
  | cons c rest ih =>
    intro acc hn hr
    have hcn : c ≠ '\n' := fun hh => hn (hh ▸ List.mem_cons_self _ _)
    have hcr : c ≠ '\r' := fun hh => hr (hh ▸ List.mem_cons_self _ _)
    have hn2 : '\n' ∉ rest := fun hh => hn (List.mem_cons_of_mem _ hh)
    have hr2 : '\r' ∉ rest := fun hh => hr (List.mem_cons_of_mem _ hh)
    have h1 : ¬(c = 'x' ∧ 1 ≤ 0) := fun hh => by omega
    have h3 : ¬(c = '\n' ∨ c = '\r') := fun hh => hh.elim hcn hcr
    simp only [splitSecsGo, h1, if_false, h3, List.replicate_zero, List.nil_append]
    rw [ih (c :: acc) hn2 hr2]
    simp

theorem splitSecs_no_sep (s : List Char) (hn : '\n' ∉ s) (hr : '\r' ∉ s) :
    splitSecs s = [s] := by
  simpa [splitSecs] using splitSecsGo_no_sep s [] hn hr

theorem dropWhile_eq_self_of_head {p : Char → Bool} {s : List Char}
    (h : ∀ c, s.head? = some c → p c = false) : s.dropWhile p = s := by
  cases s with
  | nil => rfl
  | cons c rest => simp [List.dropWhile_cons, h c rfl]

theorem trimLeft_eq_self {s : List Char} (h : ∀ c, s.head? = some c → isJsWS c = false) :
    trimLeft s = s := dropWhile_eq_self_of_head h

theorem trimRight_eq_self {s : List Char} (h : ∀ c, s.getLast? = some c → isJsWS c = false) :
    trimRight s = s := by
  unfold trimRight
  rw [dropWhile_eq_self_of_head, List.reverse_reverse]
  intro c hc
  rw [List.head?_reverse] at hc
  exact h c hc

theorem trimChars_eq_self {s : List Char}
    (h1 : ∀ c, s.head? = some c → isJsWS c = false)
    (h2 : ∀ c, s.getLast? = some c → isJsWS c = false) : trimChars s = s := by
  unfold trimChars
  rw [trimLeft_eq_self h1, trimRight_eq_self h2]

/-- The 5000-character article of the claim: 4992 `'a'`s followed by
`" privacy"` — it mentions "privacy" exactly once, and none of the cookie
patterns occur in it. -/
def artChars : List Char := List.replicate 4992 'a' ++ " privacy".toList

def privacyArticle : String := String.mk artChars

def cookieBanner : String :=
  "We use cookies to improve your experience. Accept All Reject All"

theorem art_length : artChars.length = 5000 := by
  unfold artChars
  rw [List.length_append, List.length_replicate]
  rfl

theorem art_ne_nil : artChars ≠ [] := by
  intro h
  have h2 := art_length
  rw [h] at h2
  simp at h2

theorem art_not_mem {c : Char} (hca : c ≠ 'a') (hct : c ∉ " privacy".toList) :
    c ∉ artChars := by
  intro h
  rcases List.mem_append.mp h with h | h
  · exact hca (List.eq_of_mem_replicate h)
  · exact hct h

theorem art_lower : lowerList artChars = artChars := by
  unfold lowerList artChars
  rw [List.map_append, List.map_replicate]
  have h1 : Char.toLower 'a' = 'a' := by decide
  have h2 : (" privacy".toList).map Char.toLower = " privacy".toList := by decide
  rw [h1, h2]

theorem art_containsSub_false (p : List Char) (c : Char) (hc : c ∈ p) (hca : c ≠ 'a')
    (hct : c ∉ " privacy".toList) : containsSub p artChars = false := by
  cases hb : containsSub p artChars with
  | false => rfl
  | true => exact absurd (containsSub_subset artChars p hb c hc) (art_not_mem hca hct)

theorem art_keep : keepSection artChars = true ∧ isCookieText artChars = false ∧
    keywordMatchCount artChars = 0 := by
  have e1 : containsSub ("cookie".toList) artChars = false :=
    art_containsSub_false _ 'o' (by decide) (by decide) (by decide)
  have e2 : containsSub ("cookies".toList) artChars = false :=
    art_containsSub_false _ 'o' (by decide) (by decide) (by decide)
  have e3 : containsSub ("gdpr".toList) artChars = false :=
    art_containsSub_false _ 'g' (by decide) (by decide) (by decide)
  have e4 : containsSub ("privacy policy".toList) artChars = false :=
    art_containsSub_false _ 'o' (by decide) (by decide) (by decide)
  have e5 : containsSub ("privacy settings".toList) artChars = false :=
    art_containsSub_false _ 's' (by decide) (by decide) (by decide)
  have e6 : containsSub ("consent".toList) artChars = false :=
    art_containsSub_false _ 'o' (by decide) (by decide) (by decide)
  have e7 : containsSub ("accept all".toList) artChars = false :=
    art_containsSub_false _ 'e' (by decide) (by decide) (by decide)
  have e8 : containsSub ("reject all".toList) artChars = false :=
    art_containsSub_false _ 'e' (by decide) (by decide) (by decide)
  have e9 : containsSub ("manage preferences".toList) artChars = false :=
    art_containsSub_false _ 'm' (by decide) (by decide) (by decide)
  have e10 : containsSub ("personalized ads".toList) artChars = false :=
    art_containsSub_false _ 'e' (by decide) (by decide) (by decide)
  have e11 : containsSub ("we value your privacy".toList) artChars = false :=
    art_containsSub_false _ 'w' (by decide) (by decide) (by decide)
  have e12 : containsSub ("tracking technologies".toList) artChars = false :=
    art_containsSub_false _ 't' (by decide) (by decide) (by decide)
  have hempty : artChars.isEmpty = false := by
    cases he : artChars.isEmpty with
    | false => rfl
    | true => exact absurd (List.isEmpty_iff.mp he) art_ne_nil
  simp at e1 e2 e3 e4 e5 e6 e7 e8 e9 e10 e11 e12
  have hkw : keywordMatchCount artChars = 0 := by
    simp [keywordMatchCount, COOKIE_PATTERNS, art_lower, e1, e2, e3, e4, e5, e6, e7, e8,
      e9, e10, e11, e12]
  have hck : isCookieText artChars = false := by
    simp [isCookieText, COOKIE_PATTERNS, art_lower, hempty, e1, e2, e3, e4, e5, e6, e7, e8,
      e9, e10, e11, e12]
  refine ⟨?_, hck, hkw⟩
  simp [keepSection, hempty, hck, hkw]

theorem art_no_nl : '\n' ∉ artChars := art_not_mem (by decide) (by decide)

theorem art_no_cr : '\r' ∉ artChars := art_not_mem (by decide) (by decide)

theorem art_head : artChars.head? = some 'a' := by
  unfold artChars
  have h : (4992 : Nat) = 4991 + 1 := rfl
  rw [h, List.replicate_succ]
  rfl

theorem art_last : artChars.getLast? = some 'y' := by
  unfold artChars
  rw [List.getLast?_append_of_ne_nil _ (by decide)]
  decide

theorem art_trim : trimChars artChars = artChars := by
  apply trimChars_eq_self
  · intro c hc
    rw [art_head] at hc
    cases hc
    decide
  · intro c hc
    rw [art_last] at hc
    cases hc
    decide

theorem collapseGo_a_left : ∀ (n : Nat) (t : List Char),
    collapseGo false (List.replicate n 'a' ++ t) = List.replicate n 'a' ++ collapseGo false t := by
  intro n
  induction n with
  | zero => intro t; simp
  | succ m ih =>
    intro t
    have ha : isJsWS 'a' = false := by decide
    rw [List.replicate_succ, List.cons_append]
    simp only [collapseGo, ha, Bool.false_eq_true, if_false]
    rw [ih t, List.cons_append]

theorem art_collapse : collapseWS artChars = artChars := by
  unfold collapseWS artChars
  rw [collapseGo_a_left]
  have h : collapseGo false (" privacy".toList) = " privacy".toList := by decide
  rw [h]

theorem art_clean : removeCookieSections privacyArticle = privacyArticle := by
  have hne : privacyArticle ≠ "" := by
    intro h
    have h2 : artChars = [] := congrArg String.toList h
    exact art_ne_nil h2
  have ht : privacyArticle.toList = artChars := rfl
  have hcs : cleanedSections privacyArticle = [artChars] := by
    unfold cleanedSections
    rw [ht, replaceCRLF_eq_self _ art_no_cr, splitSecs_no_sep _ art_no_nl art_no_cr]
    simp [art_trim, art_ne_nil, art_keep.1, art_collapse]
  unfold removeCookieSections
  rw [if_neg hne, hcs]
  have hj : joinSecs [artChars] = artChars := rfl
  rw [hj, art_trim]
  rfl

/-- C7: the Noise Filter drops a (trimmed, non-empty) section exactly when
(a) some cookie pattern matches it and its length is at most 1200, or (b)
the pattern set scores two or more matches in it (each of the twelve
non-global patterns contributing one match when it occurs), regardless of
length.  In particular the short cookie banner is removed entirely, while a
5000-character article mentioning "privacy" once is retained unchanged. -/
theorem claim7_noise_filter_drop_rule :
    (∀ s : List Char, s ≠ [] →
       (keepSection s = false ↔
         (isCookieText s = true ∧ s.length ≤ 1200) ∨ 2 ≤ keywordMatchCount s)) ∧
    removeCookieSections cookieBanner = "" ∧
    privacyArticle.length = 5000 ∧
    removeCookieSections privacyArticle = privacyArticle := by
  refine ⟨?_, by decide, ?_, art_clean⟩
  · intro s hs
    have hempty : s.isEmpty = false := by
      cases he : s.isEmpty with
      | false => rfl
      | true => exact absurd (List.isEmpty_iff.mp he) hs
    constructor
    · intro h
      by_cases h1 : isCookieText s = true ∧ s.length ≤ 1200
      · exact Or.inl h1
      · right
        by_cases h2 : 2 ≤ keywordMatchCount s
        · exact h2
        · exfalso
          have hb : (isCookieText s && decide (s.length ≤ 1200)) = false := by
            cases hc : isCookieText s with
            | false => rfl
            | true =>
              simp only [Bool.true_and, decide_eq_false_iff_not]
              intro hle
              exact h1 ⟨hc, hle⟩
          rw [keepSection, hempty, if_neg (by simp), hb, if_neg (by simp), if_neg h2] at h
          cases h
    · intro h
      rcases h with ⟨hck, hlen⟩ | h2
      · have hb : (isCookieText s && decide (s.length ≤ 1200)) = true := by
          rw [hck, Bool.true_and, decide_eq_true hlen]
        rw [keepSection, hempty, if_neg (by simp), hb, if_pos rfl]
      · by_cases hb : (isCookieText s && decide (s.length ≤ 1200)) = true
        · rw [keepSection, hempty, if_neg (by simp), hb, if_pos rfl]
        · rw [keepSection, hempty, if_neg (by simp),
            if_neg (by simpa using hb), if_pos h2]
  · exact art_length

/-- C7 witness: the drop-rule equivalence applied to the concrete banner
section. -/
theorem claim7_noise_filter_drop_rule_witness :
    keepSection (cookieBanner.toList) = false :=
  (claim7_noise_filter_drop_rule.1 (cookieBanner.toList) (by decide)).mpr
    (Or.inl ⟨by decide, by decide⟩)

/-! ### C8: idempotence of the Noise Filter -/

/-- A string in the image of whitespace collapsing: every whitespace
character is a plain space and no two whitespace characters are adjacent. -/
def wsCollapsed (s : List Char) : Prop :=
  (∀ c ∈ s, isJsWS c = true → c = ' ') ∧
  List.Chain' (fun a b => ¬(isJsWS a = true ∧ isJsWS b = true)) s

def headNotWS (s : List Char) : Prop := ∀ c, s.head? = some c → isJsWS c = false

theorem collapseGo_cons_ws {c : Char} (h : isJsWS c = true) (b : Bool) (rest : List Char) :
    collapseGo b (c :: rest) =
      if b then collapseGo true rest else ' ' :: collapseGo true rest := by
  simp [collapseGo, h]

theorem collapseGo_cons_not_ws {c : Char} (h : isJsWS c = false) (b : Bool) (rest : List Char) :
    collapseGo b (c :: rest) = c :: collapseGo false rest := by
  simp [collapseGo, h]

theorem collapseGo_spec : ∀ s : List Char,
    wsCollapsed (collapseGo false s) ∧
    wsCollapsed (collapseGo true s) ∧ headNotWS (collapseGo true s) := by
  intro s
  induction s with
  | nil =>
    refine ⟨⟨?_, ?_⟩, ⟨?_, ?_⟩, ?_⟩ <;> simp [collapseGo, headNotWS]
  | cons c rest ih =>
    obtain ⟨⟨hmemF, hchF⟩, ⟨hmemT, hchT⟩, hheadT⟩ := ih
    by_cases hws : isJsWS c = true
    · rw [collapseGo_cons_ws hws, collapseGo_cons_ws hws]
      simp only [if_true, if_false, Bool.false_eq_true, ite_false, ite_true]
      refine ⟨⟨?_, ?_⟩, ⟨hmemT, hchT⟩, hheadT⟩
      · intro x hx hxws
        rcases List.mem_cons.mp hx with rfl | hx
        · rfl
        · exact hmemT x hx hxws
      · rw [List.chain'_cons']
        refine ⟨?_, hchT⟩
        intro y hy
        rw [Option.mem_def] at hy
        intro hand
        have h2 := hand.2
        rw [hheadT y hy] at h2
        cases h2
    · have hwsf : isJsWS c = false := by
        cases h : isJsWS c
        · rfl
        · exact absurd h hws
      rw [collapseGo_cons_not_ws hwsf, collapseGo_cons_not_ws hwsf]
      have hout : wsCollapsed (c :: collapseGo false rest) := by
        constructor
        · intro x hx hxws
          rcases List.mem_cons.mp hx with rfl | hx
          · rw [hxws] at hwsf; cases hwsf
          · exact hmemF x hx hxws
        · rw [List.chain'_cons']
          refine ⟨?_, hchF⟩
          intro y _
          intro hand
          rw [hand.1] at hwsf
          cases hwsf
      refine ⟨hout, hout, ?_⟩
      intro x hx
      cases hx
      exact hwsf

theorem collapseGo_eq_self : ∀ s : List Char, wsCollapsed s →
    collapseGo false s = s ∧ (headNotWS s → collapseGo true s = s) := by
  intro s
  induction s with
  | nil => exact fun _ => ⟨rfl, fun _ => rfl⟩
  | cons c rest ih =>
    intro hws
    obtain ⟨hmem, hch⟩ := hws
    have hrest : wsCollapsed rest :=
      ⟨fun x hx => hmem x (List.mem_cons_of_mem _ hx), (List.chain'_cons'.mp hch).2⟩
    obtain ⟨ihF, ihT⟩ := ih hrest
    by_cases hc : isJsWS c = true
    · have hsp : c = ' ' := hmem c (List.mem_cons_self _ _) hc
      have hheadrest : headNotWS rest := by
        intro y hy
        have hr := (List.chain'_cons'.mp hch).1 y (by rw [Option.mem_def]; exact hy)
        cases hyw : isJsWS y
        · rfl
        · exact absurd ⟨hc, hyw⟩ hr
      constructor
      · rw [collapseGo_cons_ws hc]
        simp only [Bool.false_eq_true, ite_false]
        rw [ihT hheadrest, hsp]
      · intro hhead
        have h2 := hhead c rfl
        rw [hc] at h2
        cases h2
    · have hcf : isJsWS c = false := by
        cases h : isJsWS c
        · rfl
        · exact absurd h hc
      rw [collapseGo_cons_not_ws hcf, collapseGo_cons_not_ws hcf, ihF]
      exact ⟨rfl, fun _ => rfl⟩

theorem wsCollapsed_suffix {l' l : List Char} (h : l' <:+ l) (hws : wsCollapsed l) :
    wsCollapsed l' := by
  obtain ⟨pre, rfl⟩ := h
  refine ⟨fun x hx => hws.1 x (List.mem_append_right pre hx), ?_⟩
  exact (List.chain'_append.mp hws.2).2.1

theorem wsCollapsed_reverse {l : List Char} (hws : wsCollapsed l) :
    wsCollapsed l.reverse := by
  refine ⟨fun x hx => hws.1 x (List.mem_reverse.mp hx), ?_⟩
  rw [List.chain'_reverse]
  exact List.Chain'.imp (fun a b hab h2 => hab ⟨h2.2, h2.1⟩) hws.2

theorem wsCollapsed_trimChars {s : List Char} (hws : wsCollapsed s) :
    wsCollapsed (trimChars s) := by
  unfold trimChars trimLeft trimRight
  apply wsCollapsed_reverse
  apply wsCollapsed_suffix (List.dropWhile_suffix _)
  apply wsCollapsed_reverse
  exact wsCollapsed_suffix (List.dropWhile_suffix _) hws

theorem head?_dropWhile {p : Char → Bool} : ∀ (l : List Char) (c : Char),
    (l.dropWhile p).head? = some c → p c = false := by
  intro l
  induction l with
  | nil => intro c hc; cases hc
  | cons a rest ih =>
    intro c hc
    rw [List.dropWhile_cons] at hc
    by_cases hp : p a = true
    · rw [if_pos hp] at hc
      exact ih c hc
    · have hpf : p a = false := by
        cases h : p a
        · rfl
        · exact absurd h hp
      rw [if_neg (by simp [hpf])] at hc
      cases hc
      exact hpf

theorem head?_of_prefix {l' l : List Char} {c : Char} (hp : l' <+: l)
    (h : l'.head? = some c) : l.head? = some c := by
  obtain ⟨t, rfl⟩ := hp
  cases l' with
  | nil => cases h
  | cons a r => cases h; rfl

theorem trimRight_prefixOf (y : List Char) : trimRight y <+: y := by
  rw [← List.reverse_suffix]
  unfold trimRight
  rw [List.reverse_reverse]
  exact List.dropWhile_suffix _

theorem trimChars_head {s : List Char} {c : Char} (h : (trimChars s).head? = some c) :
    isJsWS c = false := by
  have h2 : (trimLeft s).head? = some c := head?_of_prefix (trimRight_prefixOf (trimLeft s)) h
  exact head?_dropWhile s c h2

theorem trimChars_last {s : List Char} {c : Char} (h : (trimChars s).getLast? = some c) :
    isJsWS c = false := by
  unfold trimChars trimRight at h
  rw [List.getLast?_reverse] at h
  exact head?_dropWhile _ c h

theorem trimChars_idem (s : List Char) : trimChars (trimChars s) = trimChars s :=
  trimChars_eq_self (fun _ h => trimChars_head h) (fun _ h => trimChars_last h)

theorem cleanedSections_spec (t : String) : ∀ s ∈ cleanedSections t,
    s ≠ [] ∧ wsCollapsed s ∧ trimChars s = s := by
  intro s hs
  unfold cleanedSections at hs
  simp only [List.mem_filter, List.mem_map, decide_eq_true_eq] at hs
  obtain ⟨⟨s0, _, rfl⟩, hne⟩ := hs
  have hcol : wsCollapsed (collapseWS s0) := (collapseGo_spec s0).1
  exact ⟨hne, wsCollapsed_trimChars hcol, trimChars_idem _⟩

theorem wsCollapsed_no_nl {s : List Char} (h : wsCollapsed s) : '\n' ∉ s ∧ '\r' ∉ s := by
  constructor <;> intro hmem
  · exact absurd (h.1 '\n' hmem (by decide)) (by decide)
  · exact absurd (h.1 '\r' hmem (by decide)) (by decide)

theorem joinSecs_no_cr : ∀ ss : List (List Char), (∀ s ∈ ss, '\r' ∉ s) →
    '\r' ∉ joinSecs ss := by
  intro ss
  induction ss with
  | nil => intro _ h; cases h
  | cons s rest ih =>
    intro h
    cases rest with
    | nil => exact h s (by simp)
    | cons t rest2 =>
      intro hmem
      simp only [joinSecs] at hmem
      rcases List.mem_append.mp hmem with h1 | h1
      · exact h s (by simp) h1
      · rcases List.mem_cons.mp h1 with h2 | h2
        · exact absurd h2 (by decide)
        · rcases List.mem_cons.mp h2 with h3 | h3
          · exact absurd h3 (by decide)
          · exact ih (fun x hx => h x (List.mem_cons_of_mem _ hx)) h3

theorem joinSecs_head : ∀ (t : List Char) (rest : List (List Char)), t ≠ [] →
    (joinSecs (t :: rest)).head? = t.head? := by
  intro t rest ht
  cases rest with
  | nil => rfl
  | cons u rest2 =>
    simp only [joinSecs]
    exact List.head?_append_of_ne_nil t ht

theorem joinSecs_ne_nil : ∀ (t : List Char) (rest : List (List Char)), t ≠ [] →
    joinSecs (t :: rest) ≠ [] := by
  intro t rest ht
  cases rest with
  | nil => exact ht
  | cons u r2 =>
    simp only [joinSecs]
    intro h
    rcases List.append_eq_nil.mp h with ⟨h1, _⟩
    exact ht h1

theorem joinSecs_last_not_ws : ∀ ss : List (List Char),
    (∀ s ∈ ss, s ≠ [] ∧ (∀ c, s.getLast? = some c → isJsWS c = false)) →
    ∀ c, (joinSecs ss).getLast? = some c → isJsWS c = false := by
  intro ss
  induction ss with
  | nil => intro _ c hc; cases hc
  | cons t rest ih =>
    intro h c hc
    cases rest with
    | nil => exact (h t (by simp)).2 c hc
    | cons u rest2 =>
      simp only [joinSecs] at hc
      have hJ : joinSecs (u :: rest2) ≠ [] := joinSecs_ne_nil u rest2 (h u (by simp)).1
      rw [List.getLast?_append_of_ne_nil _ (by simp)] at hc
      rw [show ('\n' :: '\n' :: joinSecs (u :: rest2) : List Char) =
        ['\n', '\n'] ++ joinSecs (u :: rest2) from rfl] at hc
      rw [List.getLast?_append_of_ne_nil _ hJ] at hc
      exact ih (fun x hx => h x (List.mem_cons_of_mem _ hx)) c hc

theorem trim_joinSecs (ss : List (List Char))
    (h : ∀ s ∈ ss, s ≠ [] ∧ trimChars s = s) :
    trimChars (joinSecs ss) = joinSecs ss := by
  apply trimChars_eq_self
  · intro c hc
    cases ss with
    | nil => cases hc
    | cons t rest =>
      rw [joinSecs_head t rest (h t (by simp)).1] at hc
      have ht := (h t (by simp)).2
      exact trimChars_head (s := t) (by rw [ht]; exact hc)
  · intro c hc
    apply joinSecs_last_not_ws ss ?_ c hc
    intro s hs
    exact ⟨(h s hs).1, fun c2 hc2 => trimChars_last (s := s) (by rw [(h s hs).2]; exact hc2)⟩

theorem splitSecsGo_text : ∀ (s acc t : List Char), '\n' ∉ s → '\r' ∉ s →
    splitSecsGo acc 'x' 0 (s ++ t) = splitSecsGo (s.reverse ++ acc) 'x' 0 t := by
  intro s
  induction s with
  | nil => intro acc t _ _; simp
  | cons c rest ih =>
    intro acc t hn hr
    have hcn : c ≠ '\n' := fun hh => hn (hh ▸ List.mem_cons_self _ _)
    have hcr : c ≠ '\r' := fun hh => hr (hh ▸ List.mem_cons_self _ _)
    have hn2 : '\n' ∉ rest := fun hh => hn (List.mem_cons_of_mem _ hh)
    have hr2 : '\r' ∉ rest := fun hh => hr (List.mem_cons_of_mem _ hh)
    have h1 : ¬(c = 'x' ∧ 1 ≤ 0) := fun hh => by omega
    have h3 : ¬(c = '\n' ∨ c = '\r') := fun hh => hh.elim hcn hcr
    rw [List.cons_append]
    simp only [splitSecsGo, h1, if_false, h3, List.replicate_zero, List.nil_append]
    rw [ih (c :: acc) t hn2 hr2]
    simp

theorem splitSecsGo_sep (acc t : List Char) :
    splitSecsGo acc 'x' 0 ('\n' :: '\n' :: t) = splitSecsGo acc '\n' 2 t := by
  simp [splitSecsGo]

theorem splitSecsGo_run2_done (acc t : List Char)
    (hhead : ∀ c, t.head? = some c → c ≠ '\n') :
    splitSecsGo acc '\n' 2 t = acc.reverse :: splitSecs t := by
  cases t with
  | nil => simp [splitSecsGo, splitSecs]
  | cons c rest =>
    have hcn : c ≠ '\n' := hhead c rfl
    have h1 : ¬(c = '\n' ∧ 1 ≤ 2) := fun hh => hcn hh.1
    have e1 : splitSecsGo acc '\n' 2 (c :: rest) =
        acc.reverse :: (if c = '\n' ∨ c = '\r' then splitSecsGo [] c 1 rest
          else splitSecsGo [c] 'x' 0 rest) := by
      simp only [splitSecsGo]
      rw [if_neg h1, if_pos (by omega)]
    have e2 : splitSecs (c :: rest) =
        (if c = '\n' ∨ c = '\r' then splitSecsGo [] c 1 rest
          else splitSecsGo [c] 'x' 0 rest) := by
      unfold splitSecs
      simp only [splitSecsGo, List.replicate_zero, List.nil_append]
      rw [if_neg (fun hh => by omega), if_neg (by omega)]
    rw [e1, e2]

theorem splitSecs_joinSecs : ∀ ss : List (List Char),
    (∀ s ∈ ss, s ≠ [] ∧ '\n' ∉ s ∧ '\r' ∉ s) → ss ≠ [] →
    splitSecs (joinSecs ss) = ss := by
  intro ss
  induction ss with
  | nil => intro _ h; exact absurd rfl h
  | cons t rest ih =>
    intro h _
    obtain ⟨htne, htn, htr⟩ := h t (by simp)
    cases rest with
    | nil => exact splitSecs_no_sep t htn htr
    | cons u rest2 =>
      have hu := h u (by simp)
      show splitSecs (t ++ '\n' :: '\n' :: joinSecs (u :: rest2)) = t :: u :: rest2
      unfold splitSecs
      rw [splitSecsGo_text t [] _ htn htr, List.append_nil, splitSecsGo_sep,
        splitSecsGo_run2_done _ _ ?hhead]
      · rw [List.reverse_reverse]
        rw [ih (fun s hs => h s (List.mem_cons_of_mem _ hs)) (by simp)]
      case hhead =>
        intro c hc hceq
        rw [joinSecs_head u rest2 hu.1] at hc
        subst hceq
        exact hu.2.1 (List.mem_of_mem_head? hc)

theorem cleanedSections_empty : cleanedSections "" = [] := by decide

theorem clean_nil_sections (t : String) (h : cleanedSections t = []) :
    removeCookieSections t = "" := by
  unfold removeCookieSections
  by_cases ht : t = ""
  · rw [if_pos ht]
  · rw [if_neg ht, h]
    rfl

theorem clean_eq_join (t : String) (h : cleanedSections t ≠ []) :
    removeCookieSections t = String.mk (joinSecs (cleanedSections t)) := by
  unfold removeCookieSections
  have ht : t ≠ "" := by
    intro h2
    subst h2
    exact h cleanedSections_empty
  rw [if_neg ht]
  congr 1
  apply trim_joinSecs
  intro s hs
  exact ⟨(cleanedSections_spec t s hs).1, (cleanedSections_spec t s hs).2.2⟩

theorem cleanedSections_mk_join (ss : List (List Char))
    (hspec : ∀ s ∈ ss, s ≠ [] ∧ wsCollapsed s ∧ trimChars s = s) (hne : ss ≠ []) :
    cleanedSections (String.mk (joinSecs ss)) = ss.filter keepSection := by
  have hsecs : ∀ s ∈ ss, s ≠ [] ∧ '\n' ∉ s ∧ '\r' ∉ s := by
    intro s hs2
    obtain ⟨h1, h2, _⟩ := hspec s hs2
    exact ⟨h1, (wsCollapsed_no_nl h2).1, (wsCollapsed_no_nl h2).2⟩
  unfold cleanedSections
  rw [toList_mk]
  rw [replaceCRLF_eq_self _ (joinSecs_no_cr _ (fun s hs2 => (hsecs s hs2).2.2))]
  rw [splitSecs_joinSecs _ hsecs hne]
  have hmap1 : ss.map trimChars = ss := by
    rw [List.map_congr_left (g := id) (fun s hs2 => (hspec s hs2).2.2), List.map_id]
  rw [hmap1]
  have hfil1 : ss.filter (· ≠ []) = ss :=
    List.filter_eq_self.mpr (fun s hs2 => by simpa using (hspec s hs2).1)
  rw [hfil1]
  have hmem : ∀ s ∈ ss.filter keepSection, s ≠ [] ∧ wsCollapsed s ∧ trimChars s = s := by
    intro s hs2
    exact hspec s (List.mem_of_mem_filter hs2)
  have hmap2 : (ss.filter keepSection).map
      (fun s => trimChars (collapseWS s)) = ss.filter keepSection := by
    rw [List.map_congr_left (g := id) ?_, List.map_id]
    intro s hs2
    have h2 := hmem s hs2
    show trimChars (collapseWS s) = s
    rw [show collapseWS s = s from (collapseGo_eq_self s h2.2.1).1, h2.2.2]
  rw [hmap2]
  exact List.filter_eq_self.mpr (fun s hs2 => by simpa using (hmem s hs2).1)

theorem cleanedSections_clean (t : String) :
    cleanedSections (removeCookieSections t) = (cleanedSections t).filter keepSection := by
  by_cases h : cleanedSections t = []
  · rw [clean_nil_sections t h, h, cleanedSections_empty]
    rfl
  · rw [clean_eq_join t h]
    exact cleanedSections_mk_join (cleanedSections t) (cleanedSections_spec t) h

/-- C8 counterexample: the Noise Filter is not idempotent.  Whitespace
collapsing can create a cookie-pattern match: `clean "accept\nall"` keeps
the section (the pattern `accept all` does not match across the newline)
but collapses it to `"accept all"`, which a second application drops. -/
theorem claim8_counterexample :
    removeCookieSections (removeCookieSections "accept\nall") ≠
      removeCookieSections "accept\nall" := by
  decide

/-- C8 (amended): the clean function is pure and total (it is a Lean
function), and re-applying it is a no-op whenever every cleaned section
still passes the section filter; in general a single application need not be
a fixed point (see the counterexample), but cleaning stabilizes after two
applications: `clean (clean (clean t)) = clean (clean t)` for every string. -/
theorem claim8_idempotence_amended :
    (∀ t : String, (∀ s ∈ cleanedSections t, keepSection s = true) →
       removeCookieSections (removeCookieSections t) = removeCookieSections t) ∧
    (∀ t : String,
       removeCookieSections (removeCookieSections (removeCookieSections t)) =
         removeCookieSections (removeCookieSections t)) := by
  have hcond : ∀ t : String, (∀ s ∈ cleanedSections t, keepSection s = true) →
      removeCookieSections (removeCookieSections t) = removeCookieSections t := by
    intro t hkeep
    have h1 : cleanedSections (removeCookieSections t) = cleanedSections t := by
      rw [cleanedSections_clean t]
      exact List.filter_eq_self.mpr hkeep
    by_cases h : cleanedSections t = []
    · rw [clean_nil_sections t h]
      exact clean_nil_sections _ cleanedSections_empty
    · rw [clean_eq_join (removeCookieSections t) (by rw [h1]; exact h), h1,
        ← clean_eq_join t h]
  refine ⟨hcond, ?_⟩
  intro t
  apply hcond
  intro s hs
  rw [cleanedSections_clean t] at hs
  exact List.of_mem_filter hs

/-- C8 witness: conditional idempotence applied to a concrete string all of
whose cleaned sections pass the filter. -/
theorem claim8_idempotence_amended_witness :
    removeCookieSections (removeCookieSections "hello world") =
      removeCookieSections "hello world" :=
  claim8_idempotence_amended.1 "hello world" (by decide)

end CheapCrawler
